import Mathlib

/-!
Verification development for the agent.cpp core: the incremental context
cache of `Model` (src/model.cpp) and the agent execution loop of `Agent`
(agent.cpp).  The C++ code is shallowly embedded: token ids become `Nat`,
the mutable members `processed_tokens_` / `n_past_` become an explicit
`CacheState` threaded through the functions, calls into the external
llama.cpp engine become oracle parameters recording their outcomes, and
exceptions become explicit outcome constructors that carry the state the
object retains when the exception propagates.
-/

namespace AgentCpp

/-! ## Context cache (Model, src/model.cpp) -/

/-- Cache state of a `Model`: the members `processed_tokens_` (tokens
reflected in the engine's KV cache) and `n_past_` (position in the KV
cache). -/
structure CacheState where
  processed_tokens : List Nat
  n_past : Nat
deriving DecidableEq

/-- Engine-level operations issued by `generate_from_tokens`, in call
order: `seqRm p` models `llama_memory_seq_rm(mem, 0, p, -1)` (invalidate
all KV-cache state from position `p` on) and `decodeBatch ts` models the
call `llama_decode` on the batch `ts`. -/
inductive EngineOp where
  | seqRm (pos : Nat)
  | decodeBatch (tokens : List Nat)
deriving DecidableEq

/-- Tokens fed to the engine by a list of operations: the concatenation of
all decoded batches, in order. -/
def opsTokens : List EngineOp → List Nat
  | [] => []
  | EngineOp.decodeBatch b :: rest => b ++ opsTokens rest
  | EngineOp.seqRm _ :: rest => opsTokens rest

/-- Length of the longest common leading segment of two token sequences;
the element-wise scan of model.cpp lines 203-208. -/
def commonPrefixLen : List Nat → List Nat → Nat
  | a :: as, b :: bs => if a = b then commonPrefixLen as bs + 1 else 0
  | _, _ => 0

/-- External inference-engine boundary of `generate_from_tokens`.
`n_ctx` / `n_batch` are `llama_n_ctx` / `llama_n_batch`; `decode_ok`
records, per batch, whether `llama_decode` returns 0; `is_eog` is
`llama_vocab_is_eog`; `piece` is `llama_token_to_piece` (`none` models a
negative return). -/
structure Engine where
  n_ctx : Nat
  n_batch : Nat
  decode_ok : List Nat → Bool
  is_eog : Nat → Bool
  piece : Nat → Option String

/-- Outcome of the prompt catch-up loop (model.cpp lines 218-240):
`done` means all new tokens were decoded, `ctxExceeded` models the
`throw ModelError("context size exceeded")`, `decodeFailed` models
`throw ModelError("failed to decode batch")`. -/
inductive FeedOutcome where
  | done
  | ctxExceeded
  | decodeFailed
deriving DecidableEq

/-- Result of the catch-up loop: the cache state retained by the object
(also when an exception propagates), the engine calls issued, and the
outcome. -/
structure FeedResult where
  st : CacheState
  ops : List EngineOp
  outcome : FeedOutcome
deriving DecidableEq

/-- Prompt catch-up loop of `generate_from_tokens` (model.cpp lines
218-240), starting at a state whose `processed_tokens` agree with the
already-consumed part of the prompt and with the still-to-feed suffix
`rem`.  Each round takes `batch_size = min(remaining, n_batch)`, fails
before decoding if `n_past_ + batch_size > n_ctx`, otherwise decodes the
batch and only then advances `n_past_` and `processed_tokens_`.  An empty
batch can only arise for `n_batch = 0`; `llama_decode` rejects it, which
the embedding maps to `decodeFailed` (the C++ loop would re-attempt it
forever). -/
def feedLoop (eng : Engine) (st : CacheState) (rem : List Nat) : FeedResult :=
  if rem.length = 0 then ⟨st, [], FeedOutcome.done⟩
  else
    let bs := min rem.length eng.n_batch
    if st.n_past + bs > eng.n_ctx then ⟨st, [], FeedOutcome.ctxExceeded⟩
    else if bs = 0 then ⟨st, [], FeedOutcome.decodeFailed⟩
    else
      let batch := rem.take bs
      if eng.decode_ok batch then
        let r := feedLoop eng ⟨st.processed_tokens ++ batch, st.n_past + bs⟩
          (rem.drop bs)
        ⟨r.st, EngineOp.decodeBatch batch :: r.ops, r.outcome⟩
      else ⟨st, [EngineOp.decodeBatch batch], FeedOutcome.decodeFailed⟩
termination_by rem.length
decreasing_by
  simp only [List.length_drop]
  omega

/-- Outcome of the token-by-token generation loop (model.cpp lines
242-274): `done` models the `break` on an end-of-generation token,
`ctxExceeded` the `throw` of "context size exceeded during generation",
`decodeFailed` the `throw` of "failed to decode token", `pieceFailed` the
`throw` of "failed to convert token to piece", and `outOfSamples` is a
modelling artifact: the sampler oracle below is a finite list, while the
C++ loop would keep sampling. -/
inductive GenOutcome where
  | done
  | ctxExceeded
  | decodeFailed
  | pieceFailed
  | outOfSamples
deriving DecidableEq

/-- Result of the generation loop: retained cache state, engine calls,
the text accumulated so far (delivered to the streaming callback piece by
piece; on an error outcome the C++ exception discards it for the caller),
and the outcome. -/
structure GenResult where
  st : CacheState
  ops : List EngineOp
  response : String
  outcome : GenOutcome
deriving DecidableEq

/-- Token-by-token generation loop of `generate_from_tokens` (model.cpp
lines 242-274).  `sampled` is the sequence of tokens produced by
`llama_sampler_sample`, one per round.  A sampled end-of-generation token
breaks the loop; otherwise the token is converted to text, streamed,
checked against `n_past_ + 1 > n_ctx` before its single-token decode, and
only after a successful decode are `n_past_` and `processed_tokens_`
advanced. -/
def genLoop (eng : Engine) (st : CacheState) : List Nat → GenResult
  | [] => ⟨st, [], "", GenOutcome.outOfSamples⟩
  | t :: ts =>
    if eng.is_eog t then ⟨st, [], "", GenOutcome.done⟩
    else
      match eng.piece t with
      | none => ⟨st, [], "", GenOutcome.pieceFailed⟩
      | some p =>
        if st.n_past + 1 > eng.n_ctx then ⟨st, [], p, GenOutcome.ctxExceeded⟩
        else if eng.decode_ok [t] then
          let r := genLoop eng ⟨st.processed_tokens ++ [t], st.n_past + 1⟩ ts
          ⟨r.st, EngineOp.decodeBatch [t] :: r.ops, p ++ r.response, r.outcome⟩
        else ⟨st, [EngineOp.decodeBatch [t]], p, GenOutcome.decodeFailed⟩

/-- Result of one `generate_from_tokens` call: the computed common-prefix
length, the invalidation call if the cached tail diverged (`some k`
records `llama_memory_seq_rm` from position `k`), the catch-up phase, and
the generation phase (`none` when the catch-up failed and the exception
skipped it). -/
structure GFTResult where
  common_prefix : Nat
  invalidated : Option Nat
  feed : FeedResult
  gen : Option GenResult
deriving DecidableEq

/-- Cache state held by the model after the call (also when the call
raised). -/
def GFTResult.finalState (r : GFTResult) : CacheState :=
  match r.gen with
  | some g => g.st
  | none => r.feed.st

/-- All engine calls of the run, in order. -/
def GFTResult.allOps (r : GFTResult) : List EngineOp :=
  (match r.invalidated with
   | some k => [EngineOp.seqRm k]
   | none => []) ++
    r.feed.ops ++
    (match r.gen with
     | some g => g.ops
     | none => [])

/-- Response text returned to the caller: only a run whose generation
loop ended on an end-of-generation token returns normally. -/
def GFTResult.response (r : GFTResult) : Option String :=
  match r.gen with
  | some g => if g.outcome = GenOutcome.done then some g.response else none
  | none => none

/-- Model of `Model::generate_from_tokens` (model.cpp lines 193-277):
compute the common prefix of `processed_tokens_` and `all_tokens`; if the
cached tokens diverged beyond it, invalidate the KV cache from the
divergence point and truncate `processed_tokens_` / `n_past_` to it; feed
the remaining new tokens in batches; then generate token by token. -/
def generate_from_tokens (eng : Engine) (st : CacheState)
    (all_tokens sampled : List Nat) : GFTResult :=
  let k := commonPrefixLen st.processed_tokens all_tokens
  let st1 : CacheState :=
    if k < st.processed_tokens.length then ⟨st.processed_tokens.take k, k⟩
    else st
  let inval : Option Nat :=
    if k < st.processed_tokens.length then some k else none
  let f := feedLoop eng st1 (all_tokens.drop k)
  let g :=
    if f.outcome = FeedOutcome.done then some (genLoop eng f.st sampled)
    else none
  ⟨k, inval, f, g⟩

/-- Persisted cache file, as far as this core's contract goes: the token
array handed to `llama_state_save_file` alongside the engine-defined
opaque state blob (the blob's layout is external and not modelled). -/
structure CacheFile where
  tokens : List Nat
deriving DecidableEq

/-- Model of `Model::save_cache` (model.cpp lines 279-286): the current
`processed_tokens_` are written out with the engine state. -/
def save_cache (st : CacheState) : CacheFile :=
  ⟨st.processed_tokens⟩

/-- Model of `Model::set_cache_state` (model.h lines 174-179): replace
`processed_tokens_` wholesale and set `n_past_` to the token count. -/
def set_cache_state (tokens : List Nat) : CacheState :=
  ⟨tokens, tokens.length⟩

/-- Model of `Model::load_cache` (model.cpp lines 288-306).  The outcome
of `llama_state_load_file` is external and passed as an oracle: `none`
models a failed deserialization (the function returns an empty vector and
touches nothing), `some f` a successful one returning the recovered token
array, upon which `set_cache_state` adopts it.  The pair returned is the
new in-memory cache state and the token vector reported to the caller. -/
def load_cache (st : CacheState) (loaded : Option CacheFile) :
    CacheState × List Nat :=
  match loaded with
  | none => (st, [])
  | some f => (set_cache_state f.tokens, f.tokens)

/-! ## Agent execution loop (Agent, agent.cpp)

The loop is embedded from `Agent::run_loop`.  The message type mirrors
the fields of `common_chat_msg` the loop reads and writes; tools and
callbacks are the polymorphic collaborators of the loop and are embedded
as records of total functions.  The engine's `Model::generate` is an
external call from the loop's point of view and is passed as a finite
oracle: one entry per LLM call, either the parsed assistant message or
the message of the `ModelError` the call raised; running off the end of
the oracle is a modelling artifact (`outOfOracle` below), since the C++
loop is unbounded. -/

/-- Tool-call record parsed out of an assistant response
(`common_chat_tool_call`: id, name, serialized arguments). -/
structure ToolCallRec where
  id : String
  name : String
  arguments : String
deriving DecidableEq

/-- Conversation message (the fields of `common_chat_msg` used by the
loop). -/
structure ChatMsg where
  role : String
  content : String
  tool_calls : List ToolCallRec
  tool_call_id : String
  tool_name : String
deriving DecidableEq

/-- Modelled from the spec: `ToolResult` (its header is not under src/;
spec section 3 defines it as `{output: text}` on success or
`{error: {message: text}}` on failure, with explicit recovery from error
to success; `ToolResult::from_exception` captures an exception as an
error result carrying the exception message, and assigning a plain
string yields a success result, as used throughout agent.cpp). -/
inductive ToolResult where
  | ok (output : String)
  | err (message : String)
deriving DecidableEq

/-- Tells whether the result is an error (`ToolResult::has_error`). -/
def ToolResult.has_error : ToolResult → Bool
  | ToolResult.ok _ => false
  | ToolResult.err _ => true

/-- Success output of the result (`ToolResult::output`; only read on
success). -/
def ToolResult.output : ToolResult → String
  | ToolResult.ok o => o
  | ToolResult.err _ => ""

/-- Error message of the result (`ToolResult::error().message`; only read
on error). -/
def ToolResult.message : ToolResult → String
  | ToolResult.ok _ => ""
  | ToolResult.err m => m

/-- Observable outcome of one callback's `before_tool_execution` hook: it
may rewrite the mutable `(tool_name, arguments)` pair in place, or throw
`ToolExecutionSkipped` with a message. -/
inductive BeforeToolAction where
  | proceed (tool_name arguments : String)
  | skip (message : String)

/-- Modelled from the spec: `Callback` (its header is not under src/;
spec section 4.3 defines it as a polymorphic observer/mutator with six
optional hook methods, no-op by default, whose per-point signatures are
visible at every call site in agent.cpp and in the example callbacks).
Each hook is embedded as a total function from its mutable arguments to
their new values; `before_tool_execution` may instead signal skip. -/
structure Callback where
  before_agent_loop : List ChatMsg → List ChatMsg
  after_agent_loop : List ChatMsg → String → List ChatMsg × String
  before_llm_call : List ChatMsg → List ChatMsg
  after_llm_call : ChatMsg → ChatMsg
  before_tool_execution : String → String → BeforeToolAction
  after_tool_execution : String → ToolResult → String × ToolResult

/-- Tool registered with the agent: its name and its
`execute(arguments) -> text` operation; an exception raised during
execution is modelled as `Except.error` carrying the exception
message. -/
structure ToolRec where
  name : String
  execute : String → Except String String

/-- Environment of one `Agent`: its tools, its ordered callback list, its
fixed instructions, and the external `nlohmann::json::parse` boundary
(`Except.error` carries the parse-error message, `Except.ok` the parsed
arguments in opaque form). -/
structure AgentEnv where
  tools : List ToolRec
  callbacks : List Callback
  instructions : String
  parse : String → Except String String

/-- Hook points of the callback chain. -/
inductive HookPoint where
  | before_agent_loop
  | after_agent_loop
  | before_llm_call
  | after_llm_call
  | before_tool_execution
  | after_tool_execution
deriving DecidableEq

/-- Observable events of a loop run: callback `idx`'s hook at a given
point was invoked, the engine's generate was called, or a tool's
`execute` was called. -/
inductive Ev where
  | hook (idx : Nat) (point : HookPoint)
  | llmCall
  | toolExec (name : String)
deriving DecidableEq

/-- Events of a full pass over the callback chain at one hook point, in
registration order. -/
def hookEvs (n : Nat) (p : HookPoint) : List Ev :=
  (List.range n).map (fun i => Ev.hook i p)

/-- Model of `Agent::ensure_system_message` (agent.cpp lines 22-37): when
the instructions are non-empty and the first message is not already a
system message with exactly the instructions as content, insert such a
message at the front; with empty instructions the list is left alone. -/
def ensure_system_message (instructions : String)
    (messages : List ChatMsg) : List ChatMsg :=
  if instructions = "" then messages
  else
    let has_instructions : Bool :=
      match messages with
      | m :: _ => m.role == "system" && m.content == instructions
      | [] => false
    if has_instructions then messages
    else ⟨"system", instructions, [], "", ""⟩ :: messages

/-- Chain of `before_agent_loop` hooks over the mutable message list, in
registration order. -/
def chainBeforeAgent (cbs : List Callback) (ms : List ChatMsg) :
    List ChatMsg :=
  cbs.foldl (fun acc cb => cb.before_agent_loop acc) ms

/-- Chain of `before_llm_call` hooks. -/
def chainBeforeLlm (cbs : List Callback) (ms : List ChatMsg) :
    List ChatMsg :=
  cbs.foldl (fun acc cb => cb.before_llm_call acc) ms

/-- Chain of `after_llm_call` hooks over the parsed assistant message. -/
def chainAfterLlm (cbs : List Callback) (m : ChatMsg) : ChatMsg :=
  cbs.foldl (fun acc cb => cb.after_llm_call acc) m

/-- Chain of `after_agent_loop` hooks over the final messages and
response. -/
def chainAfterAgent (cbs : List Callback) (ms : List ChatMsg)
    (resp : String) : List ChatMsg × String :=
  cbs.foldl (fun acc cb => cb.after_agent_loop acc.1 acc.2) (ms, resp)

/-- Result of running the `before_tool_execution` chain (agent.cpp lines
90-99): the mutable `tool_name` / `tool_arguments` values when the chain
ended, the skip message if some hook threw `ToolExecutionSkipped` (the
throw aborts the chain, so later hooks never run), and how many hooks
were invoked. -/
structure BTRes where
  name : String
  args : String
  skipMsg : Option String
  invoked : Nat
deriving DecidableEq

/-- Chain of `before_tool_execution` hooks, threading the mutable
`(tool_name, arguments)` pair in registration order and stopping at the
first hook that throws the skip signal. -/
def beforeToolChain : List Callback → String → String → BTRes
  | [], n, a => ⟨n, a, none, 0⟩
  | cb :: rest, n, a =>
    match cb.before_tool_execution n a with
    | BeforeToolAction.skip m => ⟨n, a, some m, 1⟩
    | BeforeToolAction.proceed n' a' =>
      let r := beforeToolChain rest n' a'
      ⟨r.name, r.args, r.skipMsg, r.invoked + 1⟩

/-- Chain of `after_tool_execution` hooks (agent.cpp lines 129-131),
threading the mutable `tool_name` and `result` through every callback in
registration order. -/
def afterToolChain (cbs : List Callback) (name : String)
    (result : ToolResult) : String × ToolResult :=
  cbs.foldl (fun acc cb => cb.after_tool_execution acc.1 acc.2) (name, result)

/-- Content of the synthetic skip result (agent.cpp lines 95-97):
`json response; response["skipped"] = msg; result = response.dump();`.
Faithful for skip messages containing no character that JSON
serialization escapes. -/
def skipJson (msg : String) : String :=
  "\x7b\"skipped\":\"" ++ msg ++ "\"\x7d"

/-- Tool lookup in the registry (agent.cpp lines 110-115, a `find_if` on
the tool name). -/
def findTool (tools : List ToolRec) (name : String) : Option ToolRec :=
  tools.find? (fun t => t.name == name)

/-- Dispatch body for a non-skipped tool call (agent.cpp lines 101-125):
parse the arguments (a parse failure becomes a `ToolArgumentError`),
look the tool up (an unknown name becomes a `ToolNotFoundError`), execute
it; every exception of the block is caught and captured as a `ToolResult`
error via `ToolResult::from_exception`, whose message is the exception's
`what()` (the two error classes above prepend "Tool '<name>' error: " per
error.h). -/
def rawToolResult (env : AgentEnv) (name args : String) :
    ToolResult × List Ev :=
  match env.parse args with
  | Except.error pe =>
    (ToolResult.err ("Tool '" ++ name ++ "' error: invalid arguments - "
      ++ pe), [])
  | Except.ok parsed =>
    match findTool env.tools name with
    | none =>
      (ToolResult.err ("Tool '" ++ name ++ "' error: tool not found"), [])
    | some t =>
      match t.execute parsed with
      | Except.ok out => (ToolResult.ok out, [Ev.toolExec name])
      | Except.error m => (ToolResult.err m, [Ev.toolExec name])

/-- Result entering the after-hook chain, with the execution events: the
synthetic JSON skip result when a before-hook skipped, otherwise the
captured parse/lookup/execute outcome. -/
def dispatchRaw (env : AgentEnv) (b : BTRes) : ToolResult × List Ev :=
  match b.skipMsg with
  | some m => (ToolResult.ok (skipJson m), [])
  | none => rawToolResult env b.name b.args

/-- Final `(tool_name, result)` pair after the whole dispatch of one tool
call: before-hooks (possibly skipping), capture of the raw outcome, and
the full after-hook chain. -/
def postHookOutcome (env : AgentEnv) (tc : ToolCallRec) :
    String × ToolResult :=
  let b := beforeToolChain env.callbacks tc.name tc.arguments
  afterToolChain env.callbacks b.name (dispatchRaw env b).1

/-- Outcome of dispatching one tool call: either the tool-role message to
append (loop continues), or the `throw ToolError(tool_name, message)` of
agent.cpp line 135 that aborts the loop. -/
inductive StepOutcome where
  | next (msg : ChatMsg)
  | abort (tool : String) (message : String)
deriving DecidableEq

/-- Dispatch of one tool call (agent.cpp lines 83-144): run the
before-hooks (a skip substitutes the synthetic JSON result and bypasses
execution), otherwise parse/lookup/execute with every failure captured as
a `ToolResult` error, run the after-hooks on the result exactly once, and
abort with `ToolError` iff the result is still an error; otherwise build
the tool-role message with the result output, the original call id and
the final (hook-mutated) tool name. -/
def dispatchToolCall (env : AgentEnv) (tc : ToolCallRec) :
    StepOutcome × List Ev :=
  let b := beforeToolChain env.callbacks tc.name tc.arguments
  let raw := dispatchRaw env b
  let fin := afterToolChain env.callbacks b.name raw.1
  let evs := hookEvs b.invoked HookPoint.before_tool_execution ++ raw.2
    ++ hookEvs env.callbacks.length HookPoint.after_tool_execution
  if fin.2.has_error then (StepOutcome.abort fin.1 fin.2.message, evs)
  else (StepOutcome.next ⟨"tool", fin.2.output, [], tc.id, fin.1⟩, evs)

/-- Dispatch of all tool calls of one assistant turn, in order: the first
aborting call throws out of the `for`, leaving the remaining calls
unprocessed; otherwise each tool message is appended in turn. -/
def dispatchAll (env : AgentEnv) (ms : List ChatMsg) :
    List ToolCallRec → Option (String × String) × List ChatMsg × List Ev
  | [] => (none, ms, [])
  | tc :: rest =>
    match dispatchToolCall env tc with
    | (StepOutcome.abort t m, evs) => (some (t, m), ms, evs)
    | (StepOutcome.next msg, evs) =>
      let r := dispatchAll env (ms ++ [msg]) rest
      (r.1, r.2.1, evs ++ r.2.2)

/-- Result of a loop run: the normal return with the final response, the
escape of a `ModelError` out of `model->generate`, the `throw ToolError`
escape, or the modelling artifact of exhausting the finite LLM-response
oracle.  Each constructor carries the message list as the caller's
mutable vector holds it at that point. -/
inductive RunResult where
  | ok (response : String) (messages : List ChatMsg)
  | engineError (message : String) (messages : List ChatMsg)
  | toolError (tool : String) (message : String) (messages : List ChatMsg)
  | outOfOracle (messages : List ChatMsg)
deriving DecidableEq

/-- Turn loop of `Agent::run_loop` (agent.cpp lines 62-145): before-LLM
hooks, the engine call (whose parsed message `Model::generate` returns
with role "assistant"), after-LLM hooks, append; a tool-call-free message
ends the loop through the after-agent hooks; otherwise all tool calls are
dispatched and the loop repeats. -/
def runTurns (env : AgentEnv) :
    List ChatMsg → List (Except String ChatMsg) → RunResult × List Ev
  | ms, [] => (RunResult.outOfOracle ms, [])
  | ms, step :: rest =>
    let n := env.callbacks.length
    let ms1 := chainBeforeLlm env.callbacks ms
    let evs1 := hookEvs n HookPoint.before_llm_call ++ [Ev.llmCall]
    match step with
    | Except.error m => (RunResult.engineError m ms1, evs1)
    | Except.ok raw =>
      let parsed := chainAfterLlm env.callbacks { raw with role := "assistant" }
      let evs2 := evs1 ++ hookEvs n HookPoint.after_llm_call
      let ms2 := ms1 ++ [parsed]
      if parsed.tool_calls.isEmpty then
        let fin := chainAfterAgent env.callbacks ms2 parsed.content
        (RunResult.ok fin.2 fin.1, evs2 ++ hookEvs n HookPoint.after_agent_loop)
      else
        match dispatchAll env ms2 parsed.tool_calls with
        | (some tm, ms3, evs3) =>
          (RunResult.toolError tm.1 tm.2 ms3, evs2 ++ evs3)
        | (none, ms3, evs3) =>
          let r := runTurns env ms3 rest
          (r.1, evs2 ++ evs3 ++ r.2)

/-- Model of `Agent::run_loop` (agent.cpp lines 50-146): ensure the
system message, run the before-agent hooks once, then iterate turns. -/
def run_loop (env : AgentEnv) (messages : List ChatMsg)
    (oracle : List (Except String ChatMsg)) : RunResult × List Ev :=
  let ms0 := ensure_system_message env.instructions messages
  let ms1 := chainBeforeAgent env.callbacks ms0
  let r := runTurns env ms1 oracle
  (r.1, hookEvs env.callbacks.length HookPoint.before_agent_loop ++ r.2)

/-- Concrete engine used to instantiate theorems on sample inputs:
context length 8, batch size 2, always-succeeding decode, token 99 as the
end-of-generation marker, decimal rendering as the piece text. -/
def sampleEngine : Engine :=
  ⟨8, 2, fun _ => true, fun t => t == 99, fun t => some (toString t)⟩

/-- Callback whose six hooks are all no-ops (the base-class default). -/
def idCallback : Callback :=
  ⟨id, fun ms r => (ms, r), id, id,
    fun n a => BeforeToolAction.proceed n a, fun n r => (n, r)⟩

/-- Callback that throws the skip signal with message "halt" from
`before_tool_execution` and is a no-op elsewhere. -/
def skipAllCallback : Callback :=
  ⟨id, fun ms r => (ms, r), id, id,
    fun _ _ => BeforeToolAction.skip "halt", fun n r => (n, r)⟩

/-- Environment with no tools and no callbacks and an always-succeeding
argument parse. -/
def emptyEnv : AgentEnv :=
  ⟨[], [], "", fun s => Except.ok s⟩

/-- Environment whose single callback always skips tool execution. -/
def skipEnv : AgentEnv :=
  ⟨[], [skipAllCallback], "", fun s => Except.ok s⟩

/-- Environment with the skipping callback registered before a no-op
callback. -/
def twoCbEnv : AgentEnv :=
  ⟨[], [skipAllCallback, idCallback], "", fun s => Except.ok s⟩

/-- Environment with a single calculator-style tool that always returns
"7". -/
def calcEnv : AgentEnv :=
  ⟨[⟨"calc", fun _ => Except.ok "7"⟩], [], "", fun s => Except.ok s⟩

/-! ## Helper lemmas about the context cache -/

theorem commonPrefixLen_le_left :
    ∀ a b : List Nat, commonPrefixLen a b ≤ a.length := by
  intro a
  induction a with
  | nil => intro b; cases b <;> simp [commonPrefixLen]
  | cons x xs ih =>
    intro b
    cases b with
    | nil => simp [commonPrefixLen]
    | cons y ys =>
      by_cases h : x = y <;> simp [commonPrefixLen, h]
      exact ih ys

theorem commonPrefixLen_le_right :
    ∀ a b : List Nat, commonPrefixLen a b ≤ b.length := by
  intro a
  induction a with
  | nil => intro b; cases b <;> simp [commonPrefixLen]
  | cons x xs ih =>
    intro b
    cases b with
    | nil => simp [commonPrefixLen]
    | cons y ys =>
      by_cases h : x = y <;> simp [commonPrefixLen, h]
      exact ih ys

theorem commonPrefixLen_take :
    ∀ a b : List Nat,
      a.take (commonPrefixLen a b) = b.take (commonPrefixLen a b) := by
  intro a
  induction a with
  | nil => intro b; cases b <;> simp [commonPrefixLen]
  | cons x xs ih =>
    intro b
    cases b with
    | nil => simp [commonPrefixLen]
    | cons y ys =>
      by_cases h : x = y <;> simp [commonPrefixLen, h]
      exact ih ys

theorem feedLoop_spec_aux (eng : Engine)
    (hd : ∀ b, eng.decode_ok b = true) (hb : 1 ≤ eng.n_batch) :
    ∀ (N : Nat) (rem : List Nat) (st : CacheState), rem.length ≤ N →
      (feedLoop eng st rem).st.processed_tokens
          = st.processed_tokens ++ opsTokens (feedLoop eng st rem).ops ∧
      (feedLoop eng st rem).st.n_past
          = st.n_past + (opsTokens (feedLoop eng st rem).ops).length ∧
      opsTokens (feedLoop eng st rem).ops
          = rem.take (opsTokens (feedLoop eng st rem).ops).length ∧
      (∀ op ∈ (feedLoop eng st rem).ops, ∃ b, op = EngineOp.decodeBatch b) ∧
      (feedLoop eng st rem).outcome ≠ FeedOutcome.decodeFailed ∧
      ((feedLoop eng st rem).outcome = FeedOutcome.ctxExceeded →
        (opsTokens (feedLoop eng st rem).ops).length < rem.length ∧
        (feedLoop eng st rem).st.n_past
            + min (rem.length - (opsTokens (feedLoop eng st rem).ops).length)
                eng.n_batch
          > eng.n_ctx) ∧
      ((feedLoop eng st rem).outcome = FeedOutcome.done →
        opsTokens (feedLoop eng st rem).ops = rem) := by
  intro N
  induction N with
  | zero =>
    intro rem st hlen
    have h0 : rem = [] := List.eq_nil_of_length_eq_zero (Nat.le_zero.mp hlen)
    subst h0
    rw [feedLoop]
    simp [opsTokens]
  | succ N ih =>
    intro rem st hlen
    by_cases h0 : rem.length = 0
    · have h0' : rem = [] := List.eq_nil_of_length_eq_zero h0
      subst h0'
      rw [feedLoop]
      simp [opsTokens]
    · rw [feedLoop]
      simp only [h0, if_false]
      by_cases hover : st.n_past + min rem.length eng.n_batch > eng.n_ctx
      · simp only [hover, if_true]
        refine ⟨by simp [opsTokens], by simp [opsTokens], by simp [opsTokens],
          by simp, by simp, ?_, by simp⟩
        intro _
        simp only [opsTokens, List.length_nil]
        constructor
        · omega
        · simpa using hover
      · have hbs1 : 1 ≤ min rem.length eng.n_batch := by omega
        have hbs0 : ¬ min rem.length eng.n_batch = 0 := by omega
        simp only [hover, if_false, hbs0, hd, if_true]
        have hlen' : (rem.drop (min rem.length eng.n_batch)).length ≤ N := by
          simp only [List.length_drop]
          omega
        have hIH := ih (rem.drop (min rem.length eng.n_batch))
          ⟨st.processed_tokens ++ rem.take (min rem.length eng.n_batch),
            st.n_past + min rem.length eng.n_batch⟩ hlen'
        obtain ⟨ih1, ih2, ih3, ih4, ih5, ih6, ih7⟩ := hIH
        have hbatchlen :
            (rem.take (min rem.length eng.n_batch)).length
              = min rem.length eng.n_batch := by
          simp [List.length_take]
        refine ⟨?_, ?_, ?_, ?_, ?_, ?_, ?_⟩
        · simp only [opsTokens]
          rw [ih1]
          simp [List.append_assoc]
        · simp only [opsTokens]
          rw [ih2]
          simp only [List.length_append, hbatchlen]
          omega
        · simp only [opsTokens]
          rw [List.length_append, hbatchlen]
          conv_lhs => rw [ih3]
          rw [List.take_add]
        · intro op hop
          simp only [List.mem_cons] at hop
          rcases hop with h | h
          · exact ⟨rem.take (min rem.length eng.n_batch), h⟩
          · exact ih4 op h
        · exact ih5
        · intro hexc
          obtain ⟨h6a, h6b⟩ := ih6 hexc
          simp only [List.length_drop] at h6a h6b
          simp only [opsTokens, List.length_append, hbatchlen]
          constructor
          · omega
          · have : rem.length - (min rem.length eng.n_batch
                + (opsTokens (feedLoop eng
                    ⟨st.processed_tokens ++ rem.take (min rem.length eng.n_batch),
                      st.n_past + min rem.length eng.n_batch⟩
                    (rem.drop (min rem.length eng.n_batch))).ops).length)
              = rem.length - min rem.length eng.n_batch
                - (opsTokens (feedLoop eng
                    ⟨st.processed_tokens ++ rem.take (min rem.length eng.n_batch),
                      st.n_past + min rem.length eng.n_batch⟩
                    (rem.drop (min rem.length eng.n_batch))).ops).length := by
              omega
            rw [this]
            exact h6b
        · intro hdone
          simp only [opsTokens, ih7 hdone]
          exact List.take_append_drop _ _

theorem feedLoop_done_aux (eng : Engine)
    (hd : ∀ b, eng.decode_ok b = true) (hb : 1 ≤ eng.n_batch) :
    ∀ (N : Nat) (rem : List Nat) (st : CacheState), rem.length ≤ N →
      st.n_past + rem.length ≤ eng.n_ctx →
      (feedLoop eng st rem).outcome = FeedOutcome.done ∧
      (feedLoop eng st rem).st
          = ⟨st.processed_tokens ++ rem, st.n_past + rem.length⟩ ∧
      opsTokens (feedLoop eng st rem).ops = rem := by
  intro N
  induction N with
  | zero =>
    intro rem st hlen _
    have h0 : rem = [] := List.eq_nil_of_length_eq_zero (Nat.le_zero.mp hlen)
    subst h0
    rw [feedLoop]
    simp [opsTokens]
  | succ N ih =>
    intro rem st hlen hctx
    by_cases h0 : rem.length = 0
    · have h0' : rem = [] := List.eq_nil_of_length_eq_zero h0
      subst h0'
      rw [feedLoop]
      simp [opsTokens]
    · rw [feedLoop]
      have hover : ¬ st.n_past + min rem.length eng.n_batch > eng.n_ctx := by
        omega
      have hbs0 : ¬ min rem.length eng.n_batch = 0 := by omega
      simp only [h0, if_false, hover, hbs0, hd, if_true]
      have hlen' : (rem.drop (min rem.length eng.n_batch)).length ≤ N := by
        simp only [List.length_drop]
        omega
      have hctx' :
          st.n_past + min rem.length eng.n_batch
              + (rem.drop (min rem.length eng.n_batch)).length ≤ eng.n_ctx := by
        simp only [List.length_drop]
        omega
      have hIH := ih (rem.drop (min rem.length eng.n_batch))
        ⟨st.processed_tokens ++ rem.take (min rem.length eng.n_batch),
          st.n_past + min rem.length eng.n_batch⟩ hlen' hctx'
      obtain ⟨ih1, ih2, ih3⟩ := hIH
      refine ⟨ih1, ?_, ?_⟩
      · rw [ih2]
        simp only [List.append_assoc, List.take_append_drop,
          List.length_drop]
        congr 1
        omega
      · simp only [opsTokens, ih3, List.take_append_drop]

theorem feedLoop_ctx_of_over_aux (eng : Engine)
    (hd : ∀ b, eng.decode_ok b = true) (hb : 1 ≤ eng.n_batch) :
    ∀ (N : Nat) (rem : List Nat) (st : CacheState), rem.length ≤ N →
      rem.length ≠ 0 → st.n_past + rem.length > eng.n_ctx →
      (feedLoop eng st rem).outcome = FeedOutcome.ctxExceeded := by
  intro N
  induction N with
  | zero =>
    intro rem st hlen h0 _
    omega
  | succ N ih =>
    intro rem st hlen h0 hover
    rw [feedLoop]
    by_cases hfail : st.n_past + min rem.length eng.n_batch > eng.n_ctx
    · simp [h0, hfail]
    · have hbs0 : ¬ min rem.length eng.n_batch = 0 := by omega
      simp only [h0, if_false, hfail, hbs0, hd, if_true]
      have hne : (rem.drop (min rem.length eng.n_batch)).length ≠ 0 := by
        simp only [List.length_drop]
        omega
      have hlen' : (rem.drop (min rem.length eng.n_batch)).length ≤ N := by
        simp only [List.length_drop]
        omega
      have hover' :
          st.n_past + min rem.length eng.n_batch
              + (rem.drop (min rem.length eng.n_batch)).length
            > eng.n_ctx := by
        simp only [List.length_drop]
        omega
      exact ih (rem.drop (min rem.length eng.n_batch))
        ⟨st.processed_tokens ++ rem.take (min rem.length eng.n_batch),
          st.n_past + min rem.length eng.n_batch⟩ hlen' hne hover'

theorem genLoop_spec (eng : Engine)
    (hd : ∀ b, eng.decode_ok b = true) :
    ∀ (sampled : List Nat) (st : CacheState),
      (genLoop eng st sampled).st.processed_tokens
          = st.processed_tokens ++ opsTokens (genLoop eng st sampled).ops ∧
      (genLoop eng st sampled).st.n_past
          = st.n_past + (opsTokens (genLoop eng st sampled).ops).length ∧
      (∀ op ∈ (genLoop eng st sampled).ops,
        ∃ t, op = EngineOp.decodeBatch [t]) ∧
      ((genLoop eng st sampled).outcome = GenOutcome.ctxExceeded →
        (genLoop eng st sampled).st.n_past + 1 > eng.n_ctx) ∧
      (genLoop eng st sampled).outcome ≠ GenOutcome.decodeFailed := by
  intro sampled
  induction sampled with
  | nil => intro st; simp [genLoop, opsTokens]
  | cons t ts ih =>
    intro st
    rw [genLoop]
    by_cases heog : eng.is_eog t
    · simp [heog, opsTokens]
    · simp only [heog, Bool.false_eq_true, if_false]
      cases hp : eng.piece t with
      | none => simp [opsTokens]
      | some p =>
        simp only []
        by_cases hctx : st.n_past + 1 > eng.n_ctx
        · simp [hctx, opsTokens]
        · simp only [hctx, if_false, hd, if_true]
          have hIH := ih ⟨st.processed_tokens ++ [t], st.n_past + 1⟩
          obtain ⟨ih1, ih2, ih3, ih4, ih5⟩ := hIH
          refine ⟨?_, ?_, ?_, ?_, ?_⟩
          · simp only [opsTokens]
            rw [ih1]
            simp [List.append_assoc]
          · simp only [opsTokens]
            rw [ih2]
            simp only [List.length_append, List.length_cons,
              List.length_nil]
            omega
          · intro op hop
            simp only [List.mem_cons] at hop
            rcases hop with h | h
            · exact ⟨t, h⟩
            · exact ih3 op h
          · exact ih4
          · exact ih5

theorem gft_norm (eng : Engine) (st : CacheState)
    (all_tokens sampled : List Nat) (k : Nat)
    (hinv : st.n_past = st.processed_tokens.length)
    (hk : k = commonPrefixLen st.processed_tokens all_tokens) :
    generate_from_tokens eng st all_tokens sampled
      = ⟨k, if k < st.processed_tokens.length then some k else none,
          feedLoop eng ⟨all_tokens.take k, k⟩ (all_tokens.drop k),
          if (feedLoop eng ⟨all_tokens.take k, k⟩
              (all_tokens.drop k)).outcome = FeedOutcome.done
          then some (genLoop eng
            (feedLoop eng ⟨all_tokens.take k, k⟩ (all_tokens.drop k)).st
            sampled)
          else none⟩ := by
  have hs :
      (if k < st.processed_tokens.length then
        (⟨st.processed_tokens.take k, k⟩ : CacheState)
      else st) = ⟨all_tokens.take k, k⟩ := by
    by_cases hlt : k < st.processed_tokens.length
    · simp only [hlt, if_true]
      rw [hk, commonPrefixLen_take]
    · have hle : k ≤ st.processed_tokens.length := by
        rw [hk]
        exact commonPrefixLen_le_left _ _
      have heq : k = st.processed_tokens.length := by omega
      simp only [hlt, if_false]
      have hfull : st.processed_tokens.take k = st.processed_tokens := by
        rw [heq]
        exact List.take_length _
      have : st.processed_tokens = all_tokens.take k := by
        rw [← hfull, hk, commonPrefixLen_take, ← hk]
      cases st with
      | mk p n =>
        simp only at hinv heq this
        rw [CacheState.mk.injEq]
        exact ⟨this, by omega⟩
  simp only [generate_from_tokens, ← hk, hs]

theorem opsTokens_append :
    ∀ xs ys : List EngineOp,
      opsTokens (xs ++ ys) = opsTokens xs ++ opsTokens ys := by
  intro xs ys
  induction xs with
  | nil => simp [opsTokens]
  | cons x rest ih => cases x <;> simp [opsTokens, ih]

/-! ## Claims about the context cache -/

/-- C1: for every cached token sequence A (the processed_tokens held at
call time) and every new full sequence B passed to generate_from_tokens,
the prompt tokens freshly decoded during the catch-up phase are exactly
B's suffix past the longest common prefix of A and B — their number is
len(B) - common_prefix_len(A,B), and no token of the common prefix is
re-decoded (stated for a run whose prompt fits the context window, with
decoding succeeding and a positive engine batch size). -/
theorem c1_catchup_decode_count (eng : Engine) (st : CacheState)
    (all_tokens sampled : List Nat) (k : Nat)
    (hd : ∀ b, eng.decode_ok b = true) (hb : 1 ≤ eng.n_batch)
    (hinv : st.n_past = st.processed_tokens.length)
    (hk : k = commonPrefixLen st.processed_tokens all_tokens)
    (hctx : all_tokens.length ≤ eng.n_ctx) :
    opsTokens (generate_from_tokens eng st all_tokens sampled).feed.ops
        = all_tokens.drop k ∧
    (opsTokens
        (generate_from_tokens eng st all_tokens sampled).feed.ops).length
        = all_tokens.length - k := by
  have hfeed : (generate_from_tokens eng st all_tokens sampled).feed
      = feedLoop eng ⟨all_tokens.take k, k⟩ (all_tokens.drop k) := by
    rw [gft_norm eng st all_tokens sampled k hinv hk]
  have hkle : k ≤ all_tokens.length := by
    rw [hk]
    exact commonPrefixLen_le_right _ _
  have hfit : (⟨all_tokens.take k, k⟩ : CacheState).n_past
      + (all_tokens.drop k).length ≤ eng.n_ctx := by
    simp only [List.length_drop]
    omega
  obtain ⟨_, _, h3⟩ := feedLoop_done_aux eng hd hb
    (all_tokens.drop k).length (all_tokens.drop k)
    ⟨all_tokens.take k, k⟩ le_rfl hfit
  rw [hfeed]
  refine ⟨h3, ?_⟩
  rw [h3]
  simp [List.length_drop]

/-- C1 witness: cached [1,2,3] against new [1,2,3,4,5] freshly decodes
exactly [4,5]. -/
theorem c1_witness :
    opsTokens (generate_from_tokens sampleEngine ⟨[1, 2, 3], 3⟩
        [1, 2, 3, 4, 5] [99]).feed.ops
        = List.drop 3 [1, 2, 3, 4, 5] ∧
    (opsTokens (generate_from_tokens sampleEngine ⟨[1, 2, 3], 3⟩
        [1, 2, 3, 4, 5] [99]).feed.ops).length
        = List.length [1, 2, 3, 4, 5] - 3 :=
  c1_catchup_decode_count sampleEngine ⟨[1, 2, 3], 3⟩ [1, 2, 3, 4, 5] [99] 3
    (fun _ => rfl) (by decide) rfl (by decide) (by decide)

/-- C2: when the cached sequence A diverges from the new sequence B at
index k = common_prefix_len(A,B) < len(A), generate_from_tokens issues
the engine invalidation from position k as its very first engine call
(before any decode), every other engine call is a decode of fresh
material, the cache afterwards equals B's kept prefix extended only by
freshly decoded tokens (B's suffix and generated tokens — never A's stale
tail), and a completed catch-up leaves the cache exactly at B. -/
theorem c2_divergence_invalidate (eng : Engine) (st : CacheState)
    (all_tokens sampled : List Nat) (k : Nat)
    (hd : ∀ b, eng.decode_ok b = true) (hb : 1 ≤ eng.n_batch)
    (hinv : st.n_past = st.processed_tokens.length)
    (hk : k = commonPrefixLen st.processed_tokens all_tokens)
    (hdiv : k < st.processed_tokens.length) :
    (generate_from_tokens eng st all_tokens sampled).invalidated = some k ∧
    (∃ rest, (generate_from_tokens eng st all_tokens sampled).allOps
        = EngineOp.seqRm k :: rest ∧
      ∀ op ∈ rest, ∃ b, op = EngineOp.decodeBatch b) ∧
    (generate_from_tokens eng st all_tokens
        sampled).finalState.processed_tokens
        = all_tokens.take k
          ++ opsTokens (generate_from_tokens eng st all_tokens sampled).allOps ∧
    ((generate_from_tokens eng st all_tokens sampled).feed.outcome
        = FeedOutcome.done →
      (generate_from_tokens eng st all_tokens
          sampled).feed.st.processed_tokens
        = all_tokens) := by
  have hg := gft_norm eng st all_tokens sampled k hinv hk
  have hfeed : (generate_from_tokens eng st all_tokens sampled).feed
      = feedLoop eng ⟨all_tokens.take k, k⟩ (all_tokens.drop k) := by
    rw [hg]
  have hinvd : (generate_from_tokens eng st all_tokens sampled).invalidated
      = some k := by
    rw [hg]
    simp [hdiv]
  have hgen : (generate_from_tokens eng st all_tokens sampled).gen
      = if (feedLoop eng ⟨all_tokens.take k, k⟩
            (all_tokens.drop k)).outcome = FeedOutcome.done
        then some (genLoop eng
          (feedLoop eng ⟨all_tokens.take k, k⟩ (all_tokens.drop k)).st
          sampled)
        else none := by
    rw [hg]
  obtain ⟨f1, f2, f3, f4, f5, f6, f7⟩ := feedLoop_spec_aux eng hd hb
    (all_tokens.drop k).length (all_tokens.drop k)
    ⟨all_tokens.take k, k⟩ le_rfl
  refine ⟨hinvd, ?_, ?_, ?_⟩
  · by_cases hdone : (feedLoop eng ⟨all_tokens.take k, k⟩
        (all_tokens.drop k)).outcome = FeedOutcome.done
    · refine ⟨(feedLoop eng ⟨all_tokens.take k, k⟩ (all_tokens.drop k)).ops
        ++ (genLoop eng
          (feedLoop eng ⟨all_tokens.take k, k⟩ (all_tokens.drop k)).st
          sampled).ops, ?_, ?_⟩
      · simp [GFTResult.allOps, hinvd, hfeed, hgen, hdone]
      · obtain ⟨_, _, g3, _, _⟩ := genLoop_spec eng hd sampled
          (feedLoop eng ⟨all_tokens.take k, k⟩ (all_tokens.drop k)).st
        intro op hop
        rcases List.mem_append.mp hop with h | h
        · exact f4 op h
        · obtain ⟨t, ht⟩ := g3 op h
          exact ⟨[t], ht⟩
    · refine ⟨(feedLoop eng ⟨all_tokens.take k, k⟩
        (all_tokens.drop k)).ops, ?_, f4⟩
      simp [GFTResult.allOps, hinvd, hfeed, hgen, hdone]
  · by_cases hdone : (feedLoop eng ⟨all_tokens.take k, k⟩
        (all_tokens.drop k)).outcome = FeedOutcome.done
    · have hfin : (generate_from_tokens eng st all_tokens
          sampled).finalState
          = (genLoop eng
            (feedLoop eng ⟨all_tokens.take k, k⟩ (all_tokens.drop k)).st
            sampled).st := by
        simp [GFTResult.finalState, hgen, hdone]
      have hops : opsTokens
          (generate_from_tokens eng st all_tokens sampled).allOps
          = opsTokens (feedLoop eng ⟨all_tokens.take k, k⟩
              (all_tokens.drop k)).ops
            ++ opsTokens (genLoop eng
              (feedLoop eng ⟨all_tokens.take k, k⟩ (all_tokens.drop k)).st
              sampled).ops := by
        simp [GFTResult.allOps, hinvd, hfeed, hgen, hdone, opsTokens,
          opsTokens_append]
      obtain ⟨g1, _, _, _, _⟩ := genLoop_spec eng hd sampled
        (feedLoop eng ⟨all_tokens.take k, k⟩ (all_tokens.drop k)).st
      rw [hfin, hops, g1, f1, List.append_assoc]
    · have hfin : (generate_from_tokens eng st all_tokens
          sampled).finalState
          = (feedLoop eng ⟨all_tokens.take k, k⟩ (all_tokens.drop k)).st := by
        simp [GFTResult.finalState, hgen, hdone, hfeed]
      have hops : opsTokens
          (generate_from_tokens eng st all_tokens sampled).allOps
          = opsTokens (feedLoop eng ⟨all_tokens.take k, k⟩
              (all_tokens.drop k)).ops := by
        simp [GFTResult.allOps, hinvd, hfeed, hgen, hdone, opsTokens,
          opsTokens_append]
      rw [hfin, hops, f1]
  · rw [hfeed]
    intro hdone
    rw [f1, f7 hdone]
    exact List.take_append_drop _ _

/-- C2 witness: cached [1,2,3] against new [1,2,9] invalidates from
position 2 before any decode and leaves the cache on B's side. -/
theorem c2_witness :
    (generate_from_tokens sampleEngine ⟨[1, 2, 3], 3⟩ [1, 2, 9]
        [99]).invalidated = some 2 ∧
    (∃ rest, (generate_from_tokens sampleEngine ⟨[1, 2, 3], 3⟩ [1, 2, 9]
        [99]).allOps = EngineOp.seqRm 2 :: rest ∧
      ∀ op ∈ rest, ∃ b, op = EngineOp.decodeBatch b) ∧
    (generate_from_tokens sampleEngine ⟨[1, 2, 3], 3⟩ [1, 2, 9]
        [99]).finalState.processed_tokens
        = List.take 2 [1, 2, 9]
          ++ opsTokens (generate_from_tokens sampleEngine ⟨[1, 2, 3], 3⟩
            [1, 2, 9] [99]).allOps ∧
    ((generate_from_tokens sampleEngine ⟨[1, 2, 3], 3⟩ [1, 2, 9]
        [99]).feed.outcome = FeedOutcome.done →
      (generate_from_tokens sampleEngine ⟨[1, 2, 3], 3⟩ [1, 2, 9]
          [99]).feed.st.processed_tokens = [1, 2, 9]) :=
  c2_divergence_invalidate sampleEngine ⟨[1, 2, 3], 3⟩ [1, 2, 9] [99] 2
    (fun _ => rfl) (by decide) rfl (by decide) (by decide)

/-- C4: a context overflow is detected before the offending decode.  If
the catch-up phase fails with the overflow error, then only whole
previously fitting batches were committed (the cache is B's prefix of
length k+m with position k+m, the failing batch of size
min(len(B)-(k+m), n_batch) is not committed, nothing is truncated) and
the overflow condition held for the pending batch; conversely a prompt
longer than the context always triggers this failure; and in the
generation phase an overflow error implies position + 1 > n_ctx with the
failing single token not committed. -/
theorem c4_context_overflow (eng : Engine) (st : CacheState)
    (all_tokens sampled : List Nat) (k m : Nat)
    (hd : ∀ b, eng.decode_ok b = true) (hb : 1 ≤ eng.n_batch)
    (hinv : st.n_past = st.processed_tokens.length)
    (hk : k = commonPrefixLen st.processed_tokens all_tokens)
    (hm : m = (opsTokens
        (generate_from_tokens eng st all_tokens sampled).feed.ops).length) :
    ((generate_from_tokens eng st all_tokens sampled).feed.outcome
        = FeedOutcome.ctxExceeded →
      (generate_from_tokens eng st all_tokens
          sampled).feed.st.processed_tokens = all_tokens.take (k + m) ∧
      (generate_from_tokens eng st all_tokens sampled).feed.st.n_past
          = k + m ∧
      k + m < all_tokens.length ∧
      k + m + min (all_tokens.length - (k + m)) eng.n_batch > eng.n_ctx ∧
      (generate_from_tokens eng st all_tokens sampled).gen = none) ∧
    (st.n_past ≤ eng.n_ctx → eng.n_ctx < all_tokens.length →
      (generate_from_tokens eng st all_tokens sampled).feed.outcome
        = FeedOutcome.ctxExceeded) ∧
    (∀ g, (generate_from_tokens eng st all_tokens sampled).gen = some g →
      g.outcome = GenOutcome.ctxExceeded →
      g.st.n_past + 1 > eng.n_ctx ∧
      g.st.processed_tokens
          = (generate_from_tokens eng st all_tokens
              sampled).feed.st.processed_tokens ++ opsTokens g.ops ∧
      g.st.n_past
          = (generate_from_tokens eng st all_tokens sampled).feed.st.n_past
            + (opsTokens g.ops).length) := by
  have hg := gft_norm eng st all_tokens sampled k hinv hk
  have hfeed : (generate_from_tokens eng st all_tokens sampled).feed
      = feedLoop eng ⟨all_tokens.take k, k⟩ (all_tokens.drop k) := by
    rw [hg]
  have hgen : (generate_from_tokens eng st all_tokens sampled).gen
      = if (feedLoop eng ⟨all_tokens.take k, k⟩
            (all_tokens.drop k)).outcome = FeedOutcome.done
        then some (genLoop eng
          (feedLoop eng ⟨all_tokens.take k, k⟩ (all_tokens.drop k)).st
          sampled)
        else none := by
    rw [hg]
  have hkle : k ≤ all_tokens.length := by
    rw [hk]
    exact commonPrefixLen_le_right _ _
  have hkA : k ≤ st.processed_tokens.length := by
    rw [hk]
    exact commonPrefixLen_le_left _ _
  obtain ⟨f1, f2, f3, f4, f5, f6, f7⟩ := feedLoop_spec_aux eng hd hb
    (all_tokens.drop k).length (all_tokens.drop k)
    ⟨all_tokens.take k, k⟩ le_rfl
  rw [hfeed] at hm
  refine ⟨?_, ?_, ?_⟩
  · intro hexc
    rw [hfeed] at hexc ⊢
    obtain ⟨h6a, h6b⟩ := f6 hexc
    rw [← hm] at h6a h6b
    simp only [List.length_drop] at h6a h6b
    refine ⟨?_, ?_, by omega, ?_, ?_⟩
    · rw [f1, ← hm] at *
      rw [f3, ← hm]
      rw [List.take_add]
    · rw [f2, ← hm]
    · have harg : all_tokens.length - (k + m)
          = all_tokens.length - k - m := by omega
      rw [harg]
      have : (feedLoop eng ⟨all_tokens.take k, k⟩
          (all_tokens.drop k)).st.n_past = k + m := by
        rw [f2, ← hm]
      omega
    · rw [hgen, hexc]
      simp
  · intro hpast hlong
    rw [hfeed]
    have hne : (all_tokens.drop k).length ≠ 0 := by
      simp only [List.length_drop]
      omega
    have hover : (⟨all_tokens.take k, k⟩ : CacheState).n_past
        + (all_tokens.drop k).length > eng.n_ctx := by
      simp only [List.length_drop]
      omega
    exact feedLoop_ctx_of_over_aux eng hd hb
      (all_tokens.drop k).length (all_tokens.drop k)
      ⟨all_tokens.take k, k⟩ le_rfl hne hover
  · intro g hgeq hgexc
    rw [hgen] at hgeq
    by_cases hdone : (feedLoop eng ⟨all_tokens.take k, k⟩
        (all_tokens.drop k)).outcome = FeedOutcome.done
    · simp only [hdone, if_true, Option.some.injEq] at hgeq
      obtain ⟨g1, g2, _, g4, _⟩ := genLoop_spec eng hd sampled
        (feedLoop eng ⟨all_tokens.take k, k⟩ (all_tokens.drop k)).st
      rw [← hgeq] at hgexc ⊢
      rw [hfeed]
      exact ⟨g4 hgexc, g1, g2⟩
    · simp [hdone] at hgeq

/-- C4 witness: an empty cache fed a 10-token prompt against context
length 8 fails with the overflow outcome, the overflow condition holding
for the pending batch. -/
theorem c4_witness :
    (generate_from_tokens sampleEngine ⟨[], 0⟩
        [1, 2, 3, 4, 5, 6, 7, 8, 9, 10] []).feed.outcome
        = FeedOutcome.ctxExceeded ∧
    0 + (opsTokens (generate_from_tokens sampleEngine ⟨[], 0⟩
          [1, 2, 3, 4, 5, 6, 7, 8, 9, 10] []).feed.ops).length
        + min (List.length [1, 2, 3, 4, 5, 6, 7, 8, 9, 10]
            - (0 + (opsTokens (generate_from_tokens sampleEngine ⟨[], 0⟩
                [1, 2, 3, 4, 5, 6, 7, 8, 9, 10] []).feed.ops).length))
          sampleEngine.n_batch
      > sampleEngine.n_ctx :=
  have h := c4_context_overflow sampleEngine ⟨[], 0⟩
    [1, 2, 3, 4, 5, 6, 7, 8, 9, 10] [] 0
    (opsTokens (generate_from_tokens sampleEngine ⟨[], 0⟩
      [1, 2, 3, 4, 5, 6, 7, 8, 9, 10] []).feed.ops).length
    (fun _ => rfl) (by decide) rfl (by decide) rfl
  have hexc := h.2.1 (by decide) (by decide)
  ⟨hexc, (h.1 hexc).2.2.2.1⟩

/-- C7: load_cache is all-or-nothing — a failed deserialization leaves
the in-memory cache state untouched and reports the empty token vector,
while only a fully successful one replaces the state wholesale with the
recovered tokens and the matching position. -/
theorem c7_load_cache_all_or_nothing (st : CacheState) :
    load_cache st none = (st, []) ∧
    ∀ f : CacheFile,
      load_cache st (some f) = (set_cache_state f.tokens, f.tokens) ∧
      (load_cache st (some f)).1.processed_tokens = f.tokens ∧
      (load_cache st (some f)).1.n_past = f.tokens.length :=
  ⟨rfl, fun _ => ⟨rfl, rfl, rfl⟩⟩

/-- C8: saving and then loading the cache with no intervening mutation
restores processed_tokens and position exactly, so the next generation on
identical input is identical to one where the save/load never happened. -/
theorem c8_save_load_roundtrip (eng : Engine) (st : CacheState)
    (all_tokens sampled : List Nat)
    (hinv : st.n_past = st.processed_tokens.length) :
    (load_cache st (some (save_cache st))).1 = st ∧
    generate_from_tokens eng (load_cache st (some (save_cache st))).1
        all_tokens sampled
      = generate_from_tokens eng st all_tokens sampled := by
  have h1 : (load_cache st (some (save_cache st))).1 = st := by
    cases st with
    | mk p n =>
      simp only at hinv
      simp [load_cache, save_cache, set_cache_state, hinv]
  exact ⟨h1, by rw [h1]⟩

/-- C8 witness: round trip on the concrete cache [1,2]. -/
theorem c8_witness :
    (load_cache ⟨[1, 2], 2⟩ (some (save_cache ⟨[1, 2], 2⟩))).1
        = (⟨[1, 2], 2⟩ : CacheState) ∧
    generate_from_tokens sampleEngine
        (load_cache ⟨[1, 2], 2⟩ (some (save_cache ⟨[1, 2], 2⟩))).1
        [1, 2, 3] [99]
      = generate_from_tokens sampleEngine ⟨[1, 2], 2⟩ [1, 2, 3] [99] :=
  c8_save_load_roundtrip sampleEngine ⟨[1, 2], 2⟩ [1, 2, 3] [99] rfl

/-! ## Helper lemmas about the agent loop -/

theorem dispatch_snd (env : AgentEnv) (tc : ToolCallRec) :
    (dispatchToolCall env tc).2
      = hookEvs (beforeToolChain env.callbacks tc.name tc.arguments).invoked
          HookPoint.before_tool_execution
        ++ (dispatchRaw env
            (beforeToolChain env.callbacks tc.name tc.arguments)).2
        ++ hookEvs env.callbacks.length HookPoint.after_tool_execution := by
  simp only [dispatchToolCall]
  split <;> rfl

theorem dispatch_fst (env : AgentEnv) (tc : ToolCallRec) :
    (dispatchToolCall env tc).1
      = if (postHookOutcome env tc).2.has_error
        then StepOutcome.abort (postHookOutcome env tc).1
          (postHookOutcome env tc).2.message
        else StepOutcome.next ⟨"tool", (postHookOutcome env tc).2.output, [],
          tc.id, (postHookOutcome env tc).1⟩ := by
  simp only [dispatchToolCall, postHookOutcome]
  split <;> simp_all

theorem dispatch_abort_iff (env : AgentEnv) (tc : ToolCallRec)
    (t m : String) :
    (dispatchToolCall env tc).1 = StepOutcome.abort t m
      ↔ ((postHookOutcome env tc).2.has_error = true
          ∧ t = (postHookOutcome env tc).1
          ∧ m = (postHookOutcome env tc).2.message) := by
  rw [dispatch_fst]
  by_cases h : (postHookOutcome env tc).2.has_error
  · simp only [h, if_true, StepOutcome.abort.injEq, true_and]
    constructor
    · intro ⟨h1, h2⟩
      exact ⟨h1.symm, h2.symm⟩
    · intro ⟨h1, h2⟩
      exact ⟨h1.symm, h2.symm⟩
  · simp [h]

theorem dispatch_next_iff (env : AgentEnv) (tc : ToolCallRec) :
    (∃ msg, (dispatchToolCall env tc).1 = StepOutcome.next msg)
      ↔ (postHookOutcome env tc).2.has_error = false := by
  rw [dispatch_fst]
  by_cases h : (postHookOutcome env tc).2.has_error <;> simp [h]

theorem beforeToolChain_invoked_le :
    ∀ (cbs : List Callback) (n a : String),
      (beforeToolChain cbs n a).invoked ≤ cbs.length := by
  intro cbs
  induction cbs with
  | nil => intro n a; simp [beforeToolChain]
  | cons cb rest ih =>
    intro n a
    simp only [beforeToolChain]
    cases h : cb.before_tool_execution n a with
    | skip m => simp
    | proceed n' a' =>
      simp only [List.length_cons]
      have := ih n' a'
      omega

theorem beforeToolChain_no_skip_all :
    ∀ (cbs : List Callback) (n a : String),
      (beforeToolChain cbs n a).skipMsg = none →
      (beforeToolChain cbs n a).invoked = cbs.length := by
  intro cbs
  induction cbs with
  | nil => intro n a _; simp [beforeToolChain]
  | cons cb rest ih =>
    intro n a hns
    simp only [beforeToolChain] at hns ⊢
    cases h : cb.before_tool_execution n a with
    | skip m => rw [h] at hns; simp at hns
    | proceed n' a' =>
      rw [h] at hns
      simp only at hns
      simp only [List.length_cons]
      rw [ih n' a' hns]

theorem dispatchAll_abort_origin (env : AgentEnv) :
    ∀ (tcs : List ToolCallRec) (ms : List ChatMsg) (t m : String),
      (dispatchAll env ms tcs).1 = some (t, m) →
      ∃ tc, (dispatchToolCall env tc).1 = StepOutcome.abort t m := by
  intro tcs
  induction tcs with
  | nil => intro ms t m h; simp [dispatchAll] at h
  | cons tc rest ih =>
    intro ms t m h
    simp only [dispatchAll] at h
    cases hdc : dispatchToolCall env tc with
    | mk outc evs =>
      rw [hdc] at h
      cases outc with
      | abort t0 m0 =>
        simp only [Option.some.injEq, Prod.mk.injEq] at h
        exact ⟨tc, by rw [hdc, h.1, h.2]⟩
      | next msg =>
        simp only at h
        exact ih (ms ++ [msg]) t m h

theorem runTurns_engineError_origin (env : AgentEnv) :
    ∀ (oracle : List (Except String ChatMsg)) (ms : List ChatMsg)
      (m : String) (ms' : List ChatMsg),
      (runTurns env ms oracle).1 = RunResult.engineError m ms' →
      Except.error m ∈ oracle := by
  intro oracle
  induction oracle with
  | nil => intro ms m ms' h; simp [runTurns] at h
  | cons step rest ih =>
    intro ms m ms' h
    cases step with
    | error m0 =>
      simp only [runTurns, RunResult.engineError.injEq] at h
      rw [h.1]
      exact List.mem_cons_self _ _
    | ok raw =>
      simp only [runTurns] at h
      split at h
      · simp at h
      · split at h
        · simp at h
        · exact List.mem_cons_of_mem _ (ih _ m ms' h)

theorem runTurns_toolError_origin (env : AgentEnv) :
    ∀ (oracle : List (Except String ChatMsg)) (ms : List ChatMsg)
      (t m : String) (ms' : List ChatMsg),
      (runTurns env ms oracle).1 = RunResult.toolError t m ms' →
      ∃ tc, (dispatchToolCall env tc).1 = StepOutcome.abort t m := by
  intro oracle
  induction oracle with
  | nil => intro ms t m ms' h; simp [runTurns] at h
  | cons step rest ih =>
    intro ms t m ms' h
    cases step with
    | error m0 => simp [runTurns] at h
    | ok raw =>
      simp only [runTurns] at h
      split at h
      · simp at h
      · rename_i heq
        split at h
        · rename_i tm ms3 evs3 hda
          simp only [RunResult.toolError.injEq] at h
          have hsome := congrArg Prod.fst hda
          simp only at hsome
          obtain ⟨tc, htc⟩ :=
            dispatchAll_abort_origin env _ _ tm.1 tm.2 hsome
          exact ⟨tc, by rw [htc, h.1, h.2.1]⟩
        · exact ih _ t m ms' h

theorem count_llmCall_hookEvs (n : Nat) (p : HookPoint) :
    (hookEvs n p).count Ev.llmCall = 0 := by
  rw [List.count_eq_zero]
  simp [hookEvs]

theorem dispatchRaw_evs_toolExec (env : AgentEnv) (b : BTRes) :
    ∀ e ∈ (dispatchRaw env b).2, ∃ s, e = Ev.toolExec s := by
  intro e he
  unfold dispatchRaw at he
  split at he
  · simp at he
  · unfold rawToolResult at he
    split at he
    · simp at he
    · split at he
      · simp at he
      · split at he <;> (simp only [List.mem_singleton] at he; exact ⟨_, he⟩)

/-! ## Claims about the agent loop -/

/-- C3: run_loop escapes with a failure iff an engine error occurs or a
tool result is still an error after all after_tool_execution hooks ran.
Dispatch aborts with the ToolError data (final tool name and message)
exactly when the post-hook result is an error, and otherwise yields the
tool message; an argument-parse failure, an unknown tool name and an
exception raised by execute are each captured as a ToolResult error (a
raw tool exception is never propagated — dispatch is total); an
engine-error escape of the loop traces back to a failed engine call, and
a tool-error escape traces back to a dispatched call whose post-hook
result was an unrecovered error carrying exactly that tool and
message. -/
theorem c3_failure_escape (env : AgentEnv) (tc : ToolCallRec)
    (ms : List ChatMsg) (oracle : List (Except String ChatMsg)) :
    ((dispatchToolCall env tc).1
        = StepOutcome.abort (postHookOutcome env tc).1
            (postHookOutcome env tc).2.message
      ↔ (postHookOutcome env tc).2.has_error = true) ∧
    ((∃ msg, (dispatchToolCall env tc).1 = StepOutcome.next msg)
      ↔ (postHookOutcome env tc).2.has_error = false) ∧
    (∀ name args pe, env.parse args = Except.error pe →
      (rawToolResult env name args).1
        = ToolResult.err
            ("Tool '" ++ name ++ "' error: invalid arguments - " ++ pe)) ∧
    (∀ name args p, env.parse args = Except.ok p →
      findTool env.tools name = none →
      (rawToolResult env name args).1
        = ToolResult.err ("Tool '" ++ name ++ "' error: tool not found")) ∧
    (∀ name args p t em, env.parse args = Except.ok p →
      findTool env.tools name = some t → t.execute p = Except.error em →
      (rawToolResult env name args).1 = ToolResult.err em) ∧
    (∀ m ms', (runTurns env ms oracle).1 = RunResult.engineError m ms' →
      Except.error m ∈ oracle) ∧
    (∀ t m ms', (runTurns env ms oracle).1 = RunResult.toolError t m ms' →
      ∃ tc2, (postHookOutcome env tc2).2.has_error = true
        ∧ t = (postHookOutcome env tc2).1
        ∧ m = (postHookOutcome env tc2).2.message) := by
  refine ⟨?_, dispatch_next_iff env tc, ?_, ?_, ?_, ?_, ?_⟩
  · constructor
    · intro h
      exact ((dispatch_abort_iff env tc _ _).mp h).1
    · intro h
      rw [dispatch_fst]
      simp [h]
  · intro name args pe hp
    simp [rawToolResult, hp]
  · intro name args p hp hf
    simp [rawToolResult, hp, hf]
  · intro name args p t em hp hf he
    simp [rawToolResult, hp, hf, he]
  · intro m ms' h
    exact runTurns_engineError_origin env oracle ms m ms' h
  · intro t m ms' h
    obtain ⟨tc2, htc⟩ := runTurns_toolError_origin env oracle ms t m ms' h
    obtain ⟨h1, h2, h3⟩ := (dispatch_abort_iff env tc2 t m).mp htc
    exact ⟨tc2, h1, h2, h3⟩

/-- C3 witness: an unknown tool name in an environment with no tools and
no callbacks makes dispatch abort with the post-hook error data. -/
theorem c3_witness :
    (dispatchToolCall emptyEnv ⟨"id1", "foo", "args"⟩).1
      = StepOutcome.abort (postHookOutcome emptyEnv ⟨"id1", "foo", "args"⟩).1
          (postHookOutcome emptyEnv ⟨"id1", "foo", "args"⟩).2.message :=
  (c3_failure_escape emptyEnv ⟨"id1", "foo", "args"⟩ [] []).1.mpr (by decide)

/-- C5 counterexample: with a callback skipping with message "halt", the
appended tool-role message's content is the JSON object
`{"skipped":"halt"}` produced by `response.dump()`, not the bare skip
message "halt" the claim states. -/
theorem c5_counterexample :
    (dispatchToolCall skipEnv ⟨"i1", "t1", "a"⟩).1
        = StepOutcome.next ⟨"tool", "\x7b\"skipped\":\"halt\"\x7d", [],
            "i1", "t1"⟩ ∧
    "\x7b\"skipped\":\"halt\"\x7d" ≠ "halt" := by
  exact ⟨by decide, by decide⟩

/-- C5 (amended): when a before_tool_execution hook raises the skip
signal with message m, the tool's execute is never invoked, the result
entering the after-hooks is the synthetic success carrying the JSON
object with the skip message under key "skipped", a tool-role message
whose content is that result's (post-hook) output is appended with
tool_call_id and tool_name set, and dispatch continues with the
remaining tool calls — provided no after_tool_execution hook rewrites
the skip result into an error. -/
theorem c5_skip_bypass (env : AgentEnv) (tc : ToolCallRec)
    (ms : List ChatMsg) (rest : List ToolCallRec) (m : String)
    (hskip : (beforeToolChain env.callbacks tc.name tc.arguments).skipMsg
      = some m)
    (hnoerr : (postHookOutcome env tc).2.has_error = false) :
    (∀ s, Ev.toolExec s ∉ (dispatchToolCall env tc).2) ∧
    postHookOutcome env tc
      = afterToolChain env.callbacks
          (beforeToolChain env.callbacks tc.name tc.arguments).name
          (ToolResult.ok (skipJson m)) ∧
    (dispatchToolCall env tc).1
      = StepOutcome.next ⟨"tool", (postHookOutcome env tc).2.output, [],
          tc.id, (postHookOutcome env tc).1⟩ ∧
    (dispatchAll env ms (tc :: rest)).1
      = (dispatchAll env
          (ms ++ [⟨"tool", (postHookOutcome env tc).2.output, [], tc.id,
            (postHookOutcome env tc).1⟩]) rest).1 := by
  have hraw : dispatchRaw env (beforeToolChain env.callbacks tc.name
      tc.arguments) = (ToolResult.ok (skipJson m), []) := by
    simp [dispatchRaw, hskip]
  have hnext : (dispatchToolCall env tc).1
      = StepOutcome.next ⟨"tool", (postHookOutcome env tc).2.output, [],
          tc.id, (postHookOutcome env tc).1⟩ := by
    rw [dispatch_fst]
    simp [hnoerr]
  refine ⟨?_, ?_, hnext, ?_⟩
  · intro s hmem
    rw [dispatch_snd, hraw] at hmem
    simp [hookEvs] at hmem
  · simp [postHookOutcome, hraw]
  · cases hdc : dispatchToolCall env tc with
    | mk outc evs =>
      rw [hdc] at hnext
      simp only at hnext
      rw [hnext] at hdc
      simp [dispatchAll, hdc]

/-- C5 witness: the skipping callback environment bypasses execution and
appends the synthetic tool message. -/
theorem c5_witness :
    (∀ s, Ev.toolExec s ∉ (dispatchToolCall skipEnv ⟨"i1", "t1", "a"⟩).2) ∧
    (dispatchToolCall skipEnv ⟨"i1", "t1", "a"⟩).1
      = StepOutcome.next ⟨"tool",
          (postHookOutcome skipEnv ⟨"i1", "t1", "a"⟩).2.output, [], "i1",
          (postHookOutcome skipEnv ⟨"i1", "t1", "a"⟩).1⟩ :=
  have h := c5_skip_bypass skipEnv ⟨"i1", "t1", "a"⟩ [] [] "halt"
    (by decide) (by decide)
  ⟨h.1, h.2.2.1⟩

/-- C6 counterexample: with empty instructions the loop inserts nothing,
although the first message differs from a system message carrying the
(empty) instructions — the claimed iff fails. -/
theorem c6_counterexample :
    ensure_system_message "" [⟨"user", "hi", [], "", ""⟩]
        = [⟨"user", "hi", [], "", ""⟩] ∧
    (⟨"user", "hi", [], "", ""⟩ : ChatMsg).role ≠ "system" := by
  exact ⟨rfl, by decide⟩

/-- C6 (amended): when the agent's instructions are non-empty,
ensure_system_message inserts the system message carrying them at the
front iff the first message is absent or does not exactly equal it, never
duplicating an exact match, and the resulting list always starts with
such a system message; with empty instructions it leaves the list
untouched. -/
theorem c6_system_message (instructions : String) (msgs : List ChatMsg)
    (hne : instructions ≠ "") :
    ((∃ m rest, msgs = m :: rest ∧ m.role = "system"
        ∧ m.content = instructions) →
      ensure_system_message instructions msgs = msgs) ∧
    ((∀ m rest, msgs = m :: rest →
        ¬(m.role = "system" ∧ m.content = instructions)) →
      ensure_system_message instructions msgs
        = ⟨"system", instructions, [], "", ""⟩ :: msgs) ∧
    (∃ m rest, ensure_system_message instructions msgs = m :: rest
      ∧ m.role = "system" ∧ m.content = instructions) := by
  cases msgs with
  | nil =>
    refine ⟨?_, ?_, ?_⟩
    · rintro ⟨m, rest, habs, -, -⟩
      exact absurd habs (by simp)
    · intro _
      simp [ensure_system_message, hne]
    · refine ⟨⟨"system", instructions, [], "", ""⟩, [], ?_, rfl, rfl⟩
      simp [ensure_system_message, hne]
  | cons m0 ms0 =>
    by_cases hmatch : m0.role = "system" ∧ m0.content = instructions
    · have hb : (m0.role == "system" && m0.content == instructions)
          = true := by
        simp [hmatch.1, hmatch.2]
      refine ⟨?_, ?_, ?_⟩
      · intro _
        simp [ensure_system_message, hne, hb]
      · intro hall
        exact absurd hmatch (hall m0 ms0 rfl)
      · refine ⟨m0, ms0, ?_, hmatch.1, hmatch.2⟩
        simp [ensure_system_message, hne, hb]
    · have hb : (m0.role == "system" && m0.content == instructions)
          = false := by
        by_cases hr : m0.role = "system"
        · by_cases hc : m0.content = instructions
          · exact absurd ⟨hr, hc⟩ hmatch
          · simp [hr, hc]
        · simp [hr]
      refine ⟨?_, ?_, ?_⟩
      · rintro ⟨m, rest, heq, hrole, hcont⟩
        rw [List.cons.injEq] at heq
        rw [← heq.1] at hrole hcont
        exact absurd ⟨hrole, hcont⟩ hmatch
      · intro _
        simp [ensure_system_message, hne, hb]
      · refine ⟨⟨"system", instructions, [], "", ""⟩, m0 :: ms0, ?_,
          rfl, rfl⟩
        simp [ensure_system_message, hne, hb]

/-- C6 witness: with instructions "sys" and an empty conversation the
system message is inserted up front. -/
theorem c6_witness :
    ∃ m rest, ensure_system_message "sys" [] = m :: rest
      ∧ m.role = "system" ∧ m.content = "sys" :=
  (c6_system_message "sys" [] (by decide)).2.2

/-- C9 counterexample: with the skipping callback registered first and a
second callback after it, the second callback's before_tool_execution
hook is never invoked for the call — the claimed "every registered
callback's before_tool_execution hook is invoked" fails. -/
theorem c9_counterexample :
    twoCbEnv.callbacks.length = 2 ∧
    Ev.hook 1 HookPoint.before_tool_execution
      ∉ (dispatchToolCall twoCbEnv ⟨"i1", "t1", "a"⟩).2 := by
  exact ⟨rfl, by decide⟩

/-- C9 (amended): at each hook point the loop invokes the registered
hooks in registration order; for every tool call the after_tool_execution
hook of every callback runs exactly once (the trace is before-hooks, then
at most one execute, then the full after chain), and the
before_tool_execution hooks run in order up to and including the first
hook that signals skip, which bypasses the remaining before hooks; a
run's trace starts with the full before_agent_loop chain and every turn
starts with the full before_llm_call chain followed by the engine
call. -/
theorem c9_hook_invocation (env : AgentEnv) (tc : ToolCallRec)
    (ms : List ChatMsg) (step : Except String ChatMsg)
    (rest oracle : List (Except String ChatMsg)) :
    (∃ mid,
      (dispatchToolCall env tc).2
        = hookEvs (beforeToolChain env.callbacks tc.name
              tc.arguments).invoked HookPoint.before_tool_execution
          ++ mid
          ++ hookEvs env.callbacks.length HookPoint.after_tool_execution
      ∧ ∀ e ∈ mid, ∃ s, e = Ev.toolExec s) ∧
    (beforeToolChain env.callbacks tc.name tc.arguments).invoked
        ≤ env.callbacks.length ∧
    ((beforeToolChain env.callbacks tc.name tc.arguments).skipMsg = none →
      (beforeToolChain env.callbacks tc.name tc.arguments).invoked
        = env.callbacks.length) ∧
    (∃ tail, (run_loop env ms oracle).2
      = hookEvs env.callbacks.length HookPoint.before_agent_loop ++ tail) ∧
    (∃ tail, (runTurns env ms (step :: rest)).2
      = hookEvs env.callbacks.length HookPoint.before_llm_call
        ++ Ev.llmCall :: tail) := by
  refine ⟨?_, beforeToolChain_invoked_le env.callbacks tc.name tc.arguments,
    beforeToolChain_no_skip_all env.callbacks tc.name tc.arguments,
    ⟨(runTurns env
        (chainBeforeAgent env.callbacks
          (ensure_system_message env.instructions ms)) oracle).2, rfl⟩, ?_⟩
  · exact ⟨(dispatchRaw env
        (beforeToolChain env.callbacks tc.name tc.arguments)).2,
      dispatch_snd env tc,
      dispatchRaw_evs_toolExec env
        (beforeToolChain env.callbacks tc.name tc.arguments)⟩
  · cases step with
    | error m0 => exact ⟨[], rfl⟩
    | ok raw =>
      simp only [runTurns]
      by_cases hemp : (chainAfterLlm env.callbacks
          { raw with role := "assistant" }).tool_calls.isEmpty
      · refine ⟨hookEvs env.callbacks.length HookPoint.after_llm_call
          ++ hookEvs env.callbacks.length HookPoint.after_agent_loop, ?_⟩
        simp [hemp, List.append_assoc]
      · rcases hda : dispatchAll env
            (chainBeforeLlm env.callbacks ms
              ++ [chainAfterLlm env.callbacks { raw with role := "assistant" }])
            (chainAfterLlm env.callbacks
              { raw with role := "assistant" }).tool_calls
          with ⟨o, ms3, evs3⟩
        cases o with
        | some tm =>
          refine ⟨hookEvs env.callbacks.length HookPoint.after_llm_call
            ++ evs3, ?_⟩
          simp [hemp, hda, List.append_assoc]
        | none =>
          refine ⟨hookEvs env.callbacks.length HookPoint.after_llm_call
            ++ evs3 ++ (runTurns env ms3 rest).2, ?_⟩
          simp [hemp, hda, List.append_assoc]

/-- C9 witness: with a single-tool environment carrying no callbacks the
before chain invokes all (zero) hooks and signals no skip. -/
theorem c9_witness :
    (beforeToolChain calcEnv.callbacks "calc" "x").invoked
        ≤ calcEnv.callbacks.length ∧
    (beforeToolChain calcEnv.callbacks "calc" "x").invoked
        = calcEnv.callbacks.length :=
  have h := c9_hook_invocation calcEnv ⟨"c1", "calc", "x"⟩ []
    (Except.error "e") [] []
  ⟨h.2.1, h.2.2.1 (by decide)⟩

/-- C10 counterexample: a conversation already ending in a tool-call-free
assistant message does not make run_loop return immediately — the loop
performs a fresh engine call, and when that response carries a tool call
it dispatches it and calls the engine again (two engine calls in the
trace), contradicting the claimed immediate return. -/
theorem c10_counterexample :
    ([⟨"assistant", "done", [], "", ""⟩] : List ChatMsg).getLast?
        = some ⟨"assistant", "done", [], "", ""⟩ ∧
    (⟨"assistant", "done", [], "", ""⟩ : ChatMsg).tool_calls = [] ∧
    ((run_loop calcEnv [⟨"assistant", "done", [], "", ""⟩]
        [Except.ok ⟨"assistant", "", [⟨"c1", "calc", "x"⟩], "", ""⟩,
          Except.ok ⟨"assistant", "final", [], "", ""⟩]).2).count Ev.llmCall
      = 2 := by
  exact ⟨rfl, rfl, by decide⟩

/-- C10 (amended): run_loop does not inspect the incoming conversation's
terminal state; every iteration performs exactly one engine call and the
loop returns immediately after the first engine call iff the freshly
generated (post-hook) assistant message carries no tool calls — in that
case the run makes exactly one engine call, whatever the input
conversation was. -/
theorem c10_one_llm_call (env : AgentEnv) (ms : List ChatMsg)
    (raw : ChatMsg) (rest : List (Except String ChatMsg))
    (hterm : (chainAfterLlm env.callbacks
        { raw with role := "assistant" }).tool_calls.isEmpty = true) :
    (runTurns env ms (Except.ok raw :: rest)).1
      = RunResult.ok
          (chainAfterAgent env.callbacks
            (chainBeforeLlm env.callbacks ms
              ++ [chainAfterLlm env.callbacks { raw with role := "assistant" }])
            (chainAfterLlm env.callbacks
              { raw with role := "assistant" }).content).2
          (chainAfterAgent env.callbacks
            (chainBeforeLlm env.callbacks ms
              ++ [chainAfterLlm env.callbacks { raw with role := "assistant" }])
            (chainAfterLlm env.callbacks
              { raw with role := "assistant" }).content).1 ∧
    ((runTurns env ms (Except.ok raw :: rest)).2).count Ev.llmCall = 1 := by
  constructor
  · simp [runTurns, hterm]
  · simp [runTurns, hterm, List.count_append, count_llmCall_hookEvs]

/-- C10 witness: a first response with no tool calls ends the run after
exactly one engine call. -/
theorem c10_witness :
    ((runTurns calcEnv []
        [Except.ok ⟨"assistant", "hi", [], "", ""⟩]).2).count Ev.llmCall
      = 1 :=
  (c10_one_llm_call calcEnv [] ⟨"assistant", "hi", [], "", ""⟩ []
    (by decide)).2

end AgentCpp
